import Mathlib

/-!
# streamchan: a channel of chunks behind io.Reader / io.WriteCloser

Shallow embedding of `src/streamchan/chan.go`.

* Go slices keep their nil / non-nil distinction (`Slice`), because
  `Reader.Read` uses `r.buffer == nil` as its terminal state.
* A `*Chunk` received from the channel is an `Option Chunk`; `none` is the nil
  pointer, which is also what a receive on a closed channel yields.
* The two `select` statements of `Reader.Read` are resolved from an `Env`
  that says what the Go runtime offers during that call.  `Reader.ReadFrom`
  computes such an `Env` from an explicit channel state.
* Run-time panics (slice bounds, send on / close of a closed channel) and a
  call that never returns are results of their own (`Outcome`).
-/

namespace Streamchan

/-! ## Go values -/

/-- One Go `byte`. -/
abbrev Byte := Fin 256

/-- Go `[]byte`, with the nil slice kept apart from an empty non-nil slice. -/
inductive Slice where
  | nil
  | arr (elems : List Byte)
  deriving DecidableEq

/-- Go `len(s)`. -/
def Slice.len : Slice → Nat
  | .nil => 0
  | .arr l => l.length

/-- Elements of a slice; the nil slice has none. -/
def Slice.elems : Slice → List Byte
  | .nil => []
  | .arr l => l

/-- Go `s[n:]`.  Out of range (`n > len(s)`) is a run-time panic, given as
`none`.  Slicing the nil slice gives the nil slice, slicing a non-nil slice
gives a non-nil slice (possibly of length zero). -/
def Slice.sliceFrom (s : Slice) (n : Nat) : Option Slice :=
  if n ≤ s.len then
    match s with
    | .nil => some .nil
    | .arr l => some (.arr (l.drop n))
  else none

/-- Go `s[:0]`: in range for every slice. -/
def Slice.sliceTo0 : Slice → Slice
  | .nil => .nil
  | .arr _ => .arr []

/-- Go `out[n:]` for the caller's buffer, whose elements are all that matters
(`Read` never tests `out` against nil).  `none` is the bounds panic. -/
def tailFrom (out : List Byte) (n : Nat) : Option (List Byte) :=
  if n ≤ out.length then some (out.drop n) else none

/-- Go builtin `copy(dst, src)`: the number of bytes copied, which is
`min(len(dst), len(src))`, and the contents of `dst` afterwards. -/
def copy (dst src : List Byte) : Nat × List Byte :=
  (min dst.length src.length,
   src.take (min dst.length src.length) ++ dst.drop (min dst.length src.length))

/-- Go `make([]byte, n)`: a non-nil slice of `n` zero bytes. -/
def makeBytes (n : Nat) : List Byte := List.replicate n 0

/-! ## Types of chan.go -/

/-- Chunk (chan.go:10-13); the timestamp is a clock reading. -/
structure Chunk where
  Data : Slice
  Timestamp : Nat
  deriving DecidableEq

/-- The two error values `Read` can return besides nil. -/
inductive Error where
  | EOF
  | ErrReadInterrupted
  deriving DecidableEq

/-- Run-time panics of the Go operations used by chan.go. -/
inductive Panic where
  | sliceBounds
  | sendOnClosed
  | closeOfClosed
  deriving DecidableEq

/-- How a call ends: it returns, it panics, or it waits forever. -/
inductive Outcome (α : Type) where
  | ret (a : α)
  | panic (p : Panic)
  | blocked
  deriving DecidableEq

/-- The `<-chan struct{}` held in `Reader.interrupt`.  `priv` is the channel
that `NewChanReader` makes itself (chan.go:60): it is receive-only from its
creation and stored in an unexported field, so nothing can send on it or close
it.  `shared k` is channel number `k` handed in through `SetInterrupt`. -/
inductive SigChan where
  | priv
  | shared (k : Nat)
  deriving DecidableEq

/-- Reader (chan.go:46-50).  The `input` channel is not a field here: its
state is passed to each call (`Env`, `Chan`). -/
structure Reader where
  interrupt : SigChan
  buffer : Slice
  deriving DecidableEq

/-- NewChanReader (chan.go:57-63): private interrupt channel, empty non-nil
buffer. -/
def NewChanReader : Reader :=
  { interrupt := .priv, buffer := .arr [] }

/-- SetInterrupt (chan.go:65-67). -/
def Reader.SetInterrupt (r : Reader) (interrupt : SigChan) : Reader :=
  { r with interrupt := interrupt }

/-! ## What the runtime offers to one `Read` call -/

/-- Facts about the channels during one `Read` call.
* `poll`: at the `select` with a `default` (chan.go:82), `some p` when a
  receive on `r.input` can proceed at once and yields `p`; `none` otherwise.
* `wait`: at the blocking `select` (chan.go:101), `some p` when a receive on
  `r.input` can proceed at some time and yields `p`; `none` when it never can.
* `fires k`: a receive on shared interrupt channel `k` can proceed.
* `intrFirst`: when both cases of the blocking `select` can proceed, the
  runtime takes the interrupt case. -/
structure Env where
  poll : Option (Option Chunk)
  wait : Option (Option Chunk)
  fires : Nat → Bool
  intrFirst : Bool

/-- Channel operations a `Read` call performed. -/
inductive Op where
  | pollRecv (p : Option Chunk)
  | pollDefault
  | waitRecv (p : Option Chunk)
  | waitInterrupt
  deriving DecidableEq

/-- What `Read` leaves behind when it returns: the reader, the caller's
buffer, the two return values, and the channel operations performed. -/
structure ReadResult where
  r : Reader
  out : List Byte
  n : Nat
  err : Option Error
  ops : List Op
  deriving DecidableEq

/-- Whether a receive on `r.interrupt` can proceed. -/
def Reader.canInterrupt (r : Reader) (env : Env) : Bool :=
  match r.interrupt with
  | .priv => false
  | .shared k => env.fires k

/-- How the blocking `select` of chan.go:101-106 ends. -/
inductive Wait where
  | recv (p : Option Chunk)
  | interrupted
  | never
  deriving DecidableEq

/-- Go `select` over `<-r.input` and `<-r.interrupt` without `default`. -/
def selectWait (r : Reader) (env : Env) : Wait :=
  match env.wait, r.canInterrupt env with
  | some p, true => if env.intrFirst then .interrupted else .recv p
  | some p, false => .recv p
  | none, true => .interrupted
  | none, false => .never

/-- The shared tail of both receive paths (chan.go:92-94 and 111-114):
`n2 := copy(out[n:], p.Data); r.buffer = p.Data[n2:]; return n + n2, nil`. -/
def Reader.fill (r : Reader) (out : List Byte) (n : Nat) (p : Chunk) (op : Op) :
    Outcome ReadResult :=
  match tailFrom out n with
  | none => .panic .sliceBounds
  | some tl =>
    match p.Data.sliceFrom (copy tl p.Data.elems).1 with
    | none => .panic .sliceBounds
    | some b2 =>
      .ret { r := { r with buffer := b2 }
             out := out.take n ++ (copy tl p.Data.elems).2
             n := n + (copy tl p.Data.elems).1
             err := none
             ops := [op] }

/-- Read (chan.go:71-115). -/
def Reader.Read (r : Reader) (out : List Byte) (env : Env) : Outcome ReadResult :=
  match r.buffer with
  | .nil => .ret { r := r, out := out, n := 0, err := some .EOF, ops := [] }
  | .arr buf =>
    match (Slice.arr buf).sliceFrom (copy out buf).1 with
    | none => .panic .sliceBounds
    | some b1 =>
      if out.length ≤ b1.len then
        .ret { r := { r with buffer := b1 }, out := (copy out buf).2,
               n := (copy out buf).1, err := none, ops := [] }
      else if 0 < (copy out buf).1 then
        match env.poll with
        | some none =>
          if 0 < (copy out buf).1 then
            .ret { r := { r with buffer := .nil }, out := (copy out buf).2,
                   n := (copy out buf).1, err := none, ops := [.pollRecv none] }
          else
            .ret { r := { r with buffer := .nil }, out := (copy out buf).2,
                   n := 0, err := some .EOF, ops := [.pollRecv none] }
        | some (some p) =>
          Reader.fill { r with buffer := b1 } (copy out buf).2 (copy out buf).1 p
            (.pollRecv (some p))
        | none =>
          .ret { r := { r with buffer := b1 }, out := (copy out buf).2,
                 n := (copy out buf).1, err := none, ops := [.pollDefault] }
      else
        match selectWait r env with
        | .never => .blocked
        | .interrupted =>
          .ret { r := { r with buffer := b1.sliceTo0 }, out := (copy out buf).2,
                 n := 0, err := some .ErrReadInterrupted, ops := [.waitInterrupt] }
        | .recv none =>
          .ret { r := { r with buffer := .nil }, out := (copy out buf).2,
                 n := 0, err := some .EOF, ops := [.waitRecv none] }
        | .recv (some p) =>
          Reader.fill { r with buffer := b1 } (copy out buf).2 (copy out buf).1 p
            (.waitRecv (some p))

/-- Successive `Read` calls on one reader, each with its own buffer and its
own environment; the run stops at the first call that does not return. -/
def Reader.ReadMany (r : Reader) : List (List Byte × Env) → List (Outcome ReadResult)
  | [] => []
  | (out, env) :: rest =>
    match r.Read out env with
    | .ret res => .ret res :: res.r.ReadMany rest
    | .panic p => [.panic p]
    | .blocked => [.blocked]

/-! ## The channel and the Writer -/

/-- State of the `chan *Chunk` between Writer and Reader: the pointers handed
to a send that no receive has taken yet, oldest first, and whether `close` has
been called. -/
structure Chan where
  queue : List (Option Chunk)
  closed : Bool
  deriving DecidableEq

/-- A freshly made channel (`make(chan *Chunk)`). -/
def Chan.new : Chan := { queue := [], closed := false }

/-- Go `c <- p`: panics on a closed channel; otherwise the value waits after
everything sent before it, and the statement completes when a receive takes
the value.  `taken` says whether the send can proceed, that is, whether a
receive takes the value at some time; if none ever does, the statement never
completes. -/
def Chan.send (c : Chan) (p : Option Chunk) (taken : Bool) : Chan × Outcome Unit :=
  if c.closed then (c, .panic .sendOnClosed)
  else ({ c with queue := c.queue ++ [p] }, if taken then .ret () else .blocked)

/-- Go `close(c)`: panics on a closed channel. -/
def Chan.close (c : Chan) : Chan × Outcome Unit :=
  if c.closed then (c, .panic .closeOfClosed)
  else ({ c with closed := true }, .ret ())

/-- A receive that can proceed: the oldest pending value, or nil once the
channel is closed and drained; `none` when nothing can be received. -/
def Chan.recv (c : Chan) : Option (Option Chunk × Chan) :=
  match c.queue with
  | p :: q => some (p, { c with queue := q })
  | [] => if c.closed then some (none, c) else none

/-- Write (chan.go:29-35), on the state of `w.output`, with the clock reading
used for the timestamp and with whether the send of chan.go:33 can proceed
(`taken`, as in `Chan.send`).  Gives the channel afterwards and how the call
ends: it returns only once the send has completed. -/
def Writer.Write (output : Chan) (buf : List Byte) (now : Nat) (taken : Bool) :
    Chan × Outcome (Nat × Option Error) :=
  match output.send
      (some { Data := .arr (copy (makeBytes buf.length) buf).2, Timestamp := now }) taken with
  | (c, .ret _) => (c, .ret (buf.length, none))
  | (c, .panic p) => (c, .panic p)
  | (c, .blocked) => (c, .blocked)

/-- Close (chan.go:38-42). -/
def Writer.Close (output : Chan) : Chan × Outcome (Option Error) :=
  match output.close with
  | (c, .ret _) => (c, .ret none)
  | (c, .panic p) => (c, .panic p)
  | (c, .blocked) => (c, .blocked)

/-- Timing of one `Read` call against the channel.
* `ready`: at the `select` with `default`, the producer has already reached
  its next send or its close, so that a receive can proceed at once.
* `fires`, `intrFirst`: as in `Env`. -/
structure Sched where
  ready : Bool
  fires : Nat → Bool
  intrFirst : Bool

/-- The environment a `Read` call sees on channel state `c`. -/
def Chan.env (c : Chan) (s : Sched) : Env :=
  { poll := if s.ready then c.recv.map Prod.fst else none
    wait := c.recv.map Prod.fst
    fires := s.fires
    intrFirst := s.intrFirst }

/-- Whether an operation took a value from the input channel. -/
def Op.isRecv : Op → Bool
  | .pollRecv _ => true
  | .waitRecv _ => true
  | _ => false

/-- The channel once the receives among `ops` have been carried out. -/
def Chan.after (c : Chan) (ops : List Op) : Chan :=
  if ops.any Op.isRecv then
    match c.recv with
    | some (_, c1) => c1
    | none => c
  else c

/-- `Read` against an explicit channel state: the result and the channel
afterwards. -/
def Reader.ReadFrom (r : Reader) (out : List Byte) (c : Chan) (s : Sched) :
    Outcome (ReadResult × Chan) :=
  match r.Read out (c.env s) with
  | .ret res => .ret (res, c.after res.ops)
  | .panic p => .panic p
  | .blocked => .blocked

/-- Write each buffer in turn (clock reading `now`, `now+1`, ...), each send
being taken by a receive before the next Write starts. -/
def Writer.WriteAll (output : Chan) (now : Nat) : List (List Byte) → Chan
  | [] => output
  | b :: bs => Writer.WriteAll (Writer.Write output b now true).1 (now + 1) bs

/-- Read repeatedly with the given buffers and timings, collecting the bytes
`out[:n]` of every call that returns a nil error, up to the first `io.EOF`.
`none` when the calls run out before `io.EOF`, or a call is interrupted,
panics or never returns. -/
def Reader.drain (r : Reader) (c : Chan) : List (List Byte × Sched) → Option (List Byte)
  | [] => none
  | (out, s) :: rest =>
    match r.ReadFrom out c s with
    | .ret (res, c1) =>
      match res.err with
      | none => (res.r.drain c1 rest).map (fun tl => res.out.take res.n ++ tl)
      | some .EOF => some []
      | some .ErrReadInterrupted => none
    | _ => none

/-- A timing in which the producer is always ahead of the reader and no
interrupt fires. -/
def Sched.eager : Sched := { ready := true, fires := fun _ => false, intrFirst := false }

/-- A timing in which the producer is never ahead at a non-blocking receive. -/
def Sched.lazy : Sched := { ready := false, fires := fun _ => false, intrFirst := false }


/-- The slice without its first `k` elements, nil staying nil. -/
def Slice.dropFront (s : Slice) (k : Nat) : Slice :=
  match s with
  | .nil => .nil
  | .arr l => .arr (l.drop k)

/-- An environment in which the input channel is closed and drained. -/
def Env.closed : Env :=
  { poll := some none, wait := some none, fires := fun _ => false, intrFirst := false }

/-- An environment in which nothing arrives on the input channel and every
shared interrupt channel fires. -/
def Env.interrupting : Env :=
  { poll := none, wait := none, fires := fun _ => true, intrFirst := false }

/-- An environment in which the given chunk is ready on the input channel and
no interrupt fires. -/
def Env.offering (p : Chunk) : Env :=
  { poll := some (some p), wait := some (some p), fires := fun _ => false, intrFirst := false }

/-- Whether an operation belongs to the `select` with `default`
(chan.go:82-97). -/
def Op.isPoll : Op → Bool
  | .pollRecv _ => true
  | .pollDefault => true
  | _ => false

/-- Whether an operation belongs to the blocking `select` (chan.go:101-106). -/
def Op.isWait : Op → Bool
  | .waitRecv _ => true
  | .waitInterrupt => true
  | _ => false

/-- Whether a call got as far as the blocking `select` of chan.go:101: it
either never comes back from it, or returns with one of its cases taken. -/
def Outcome.reachedWait : Outcome ReadResult → Bool
  | .blocked => true
  | .ret res => res.ops.any Op.isWait
  | .panic _ => false

/-- Bytes of the chunk an operation took from the input channel; none for a
nil pointer, the `default` case or the interrupt case. -/
def Op.data : Op → List Byte
  | .pollRecv (some p) => p.Data.elems
  | .waitRecv (some p) => p.Data.elems
  | _ => []

/-- Bytes of all chunks received by the operations of one call. -/
def received (ops : List Op) : List Byte :=
  (ops.map Op.data).flatten

/-- Read in the manner of `io.Copy`: call `Read` with each buffer in turn
until a call returns an error (kept as the last result), a call does not
return, or the buffers run out. -/
def Reader.readUntilEOF (r : Reader) (c : Chan) : List (List Byte × Sched) → List ReadResult
  | [] => []
  | (out, s) :: rest =>
    match r.ReadFrom out c s with
    | .ret (res, c1) =>
      match res.err with
      | none => res :: res.r.readUntilEOF c1 rest
      | some _ => [res]
    | _ => []

/-- The pointers that `WriteAll` hands to the channel, in order. -/
def Writer.chunks (now : Nat) : List (List Byte) → List (Option Chunk)
  | [] => []
  | b :: bs => some { Data := .arr b, Timestamp := now } :: Writer.chunks (now + 1) bs

/-- Reading whole chunks, as the round trip with large buffers describes it:
the i-th Read receives the i-th written buffer whole in its blocking select,
puts it at the front of its buffer and leaves an empty leftover; the Read
after the last chunk receives the nil of the closed channel and returns
io.EOF. -/
def wholeChunkReads (now : Nat) : List (List Byte) → List (List Byte × Sched) → List ReadResult
  | _, [] => []
  | [], (out, _) :: _ =>
    [{ r := { interrupt := .priv, buffer := .nil }, out := out, n := 0, err := some .EOF,
       ops := [.waitRecv none] }]
  | b :: bs, (out, _) :: rest =>
    { r := NewChanReader, out := b ++ out.drop b.length, n := b.length, err := none,
      ops := [.waitRecv (some { Data := .arr b, Timestamp := now })] } ::
      wholeChunkReads (now + 1) bs rest

/-- Whether an operation received the nil pointer of a closed channel. -/
def Op.isClosed : Op → Bool
  | .pollRecv none => true
  | .waitRecv none => true
  | _ => false

/-- Successive `Read` calls on one reader, as `ReadMany`, keeping the reader
after the last call that returned and all channel operations performed. -/
def Reader.ReadTrace (r : Reader) : List (List Byte × Env) → Reader × List Op
  | [] => (r, [])
  | (out, env) :: rest =>
    match r.Read out env with
    | .ret res => ((res.r.ReadTrace rest).1, res.ops ++ (res.r.ReadTrace rest).2)
    | _ => (r, [])

/-- The chunk is one that `Writer.Write` sends for some buffer. -/
def Writer.produces (p : Chunk) : Prop :=
  ∃ (buf : List Byte) (now : Nat) (taken : Bool),
    (Writer.Write Chan.new buf now taken).1.queue = [some p]

/-- An operation that, if it received a chunk, received one sent by
`Writer.Write`. -/
def Op.fromWriter (op : Op) : Prop :=
  ∀ p : Chunk, (op = .pollRecv (some p) ∨ op = .waitRecv (some p)) → Writer.produces p

/-! ## Basic facts -/

theorem copy_fst (dst src : List Byte) : (copy dst src).1 = min dst.length src.length := rfl

theorem copy_snd (dst src : List Byte) :
    (copy dst src).2 = src.take (min dst.length src.length) ++ dst.drop (min dst.length src.length) := rfl

theorem sliceFrom_arr (l : List Byte) (n : Nat) (h : n ≤ l.length) :
    (Slice.arr l).sliceFrom n = some (.arr (l.drop n)) := by
  simp [Slice.sliceFrom, Slice.len, h]

theorem sliceFrom_copy (s : Slice) (tl : List Byte) :
    s.sliceFrom (copy tl s.elems).1 =
      some (match s with | .nil => .nil | .arr l => .arr (l.drop (min tl.length l.length))) := by
  cases s with
  | nil => simp [Slice.sliceFrom, Slice.len, Slice.elems, copy]
  | arr l => simp [Slice.sliceFrom, Slice.len, Slice.elems, copy]

theorem Read_nil (r : Reader) (out : List Byte) (env : Env) (h : r.buffer = .nil) :
    r.Read out env = .ret { r := r, out := out, n := 0, err := some .EOF, ops := [] } := by
  simp [Reader.Read, h]

theorem ReadMany_nil (r : Reader) (h : r.buffer = .nil) (calls : List (List Byte × Env)) :
    r.ReadMany calls =
      calls.map (fun c => .ret { r := r, out := c.1, n := 0, err := some .EOF, ops := [] }) := by
  induction calls with
  | nil => rfl
  | cons c rest ih =>
    obtain ⟨out, env⟩ := c
    simp [Reader.ReadMany, Read_nil r out env h, ih]

theorem fill_err (r : Reader) (out : List Byte) (n : Nat) (p : Chunk) (op : Op) (res : ReadResult)
    (h : r.fill out n p op = .ret res) : res.err = none := by
  unfold Reader.fill at h
  split at h
  · cases h
  · split at h
    · cases h
    · cases h; rfl

theorem copy_snd_length (dst src : List Byte) : (copy dst src).2.length = dst.length := by
  simp [copy]

theorem fill_eq (r : Reader) (out : List Byte) (n : Nat) (p : Chunk) (op : Op)
    (hn : n ≤ out.length) :
    r.fill out n p op =
      .ret { r := { r with buffer := p.Data.dropFront (min (out.length - n) p.Data.len) }
             out := out.take n ++ (p.Data.elems.take (min (out.length - n) p.Data.len) ++
                      out.drop (n + min (out.length - n) p.Data.len))
             n := n + min (out.length - n) p.Data.len
             err := none
             ops := [op] } := by
  cases hp : p.Data with
  | nil => simp [Reader.fill, tailFrom, hn, hp, Slice.sliceFrom, Slice.len, Slice.elems, copy,
      Slice.dropFront]
  | arr l => simp [Reader.fill, tailFrom, hn, hp, Slice.sliceFrom, Slice.len, Slice.elems, copy,
      Slice.dropFront, Nat.add_comm]

theorem Read_arr (r : Reader) (out : List Byte) (env : Env) (buf : List Byte)
    (h : r.buffer = .arr buf) :
    r.Read out env =
      if out.length ≤ buf.length - min out.length buf.length then
        .ret { r := { r with buffer := .arr (buf.drop (min out.length buf.length)) },
               out := (copy out buf).2, n := min out.length buf.length, err := none, ops := [] }
      else if 0 < min out.length buf.length then
        match env.poll with
        | some none =>
          .ret { r := { r with buffer := .nil }, out := (copy out buf).2,
                 n := min out.length buf.length, err := none, ops := [.pollRecv none] }
        | some (some p) =>
          Reader.fill { r with buffer := .arr (buf.drop (min out.length buf.length)) }
            (copy out buf).2 (min out.length buf.length) p (.pollRecv (some p))
        | none =>
          .ret { r := { r with buffer := .arr (buf.drop (min out.length buf.length)) },
                 out := (copy out buf).2, n := min out.length buf.length, err := none,
                 ops := [.pollDefault] }
      else
        match selectWait r env with
        | .never => .blocked
        | .interrupted =>
          .ret { r := { r with buffer := .arr [] }, out := (copy out buf).2,
                 n := 0, err := some .ErrReadInterrupted, ops := [.waitInterrupt] }
        | .recv none =>
          .ret { r := { r with buffer := .nil }, out := (copy out buf).2,
                 n := 0, err := some .EOF, ops := [.waitRecv none] }
        | .recv (some p) =>
          Reader.fill { r with buffer := .arr (buf.drop (min out.length buf.length)) }
            (copy out buf).2 (min out.length buf.length) p (.waitRecv (some p)) := by
  unfold Reader.Read
  simp only [h, copy_fst]
  rw [sliceFrom_arr _ _ (Nat.min_le_right _ _)]
  simp only [Slice.len, List.length_drop, Slice.sliceTo0]
  split_ifs <;> rfl

theorem Read_EOF_terminal (r : Reader) (out : List Byte) (env : Env) (res : ReadResult)
    (h : r.Read out env = .ret res) (he : res.err = some .EOF) :
    res.n = 0 ∧ res.r.buffer = .nil := by
  cases hb : r.buffer with
  | nil => rw [Read_nil r out env hb] at h; cases h; simp [hb]
  | arr buf =>
    rw [Read_arr r out env buf hb] at h
    split_ifs at h
    · cases h; simp at he
    · split at h
      · cases h; simp at he
      · have := fill_err _ _ _ _ _ _ h; simp [this] at he
      · cases h; simp at he
    · split at h
      · cases h
      · cases h; simp at he
      · cases h; simp
      · have := fill_err _ _ _ _ _ _ h; simp [this] at he

theorem Read_interrupt_eq (r : Reader) (out : List Byte) (env : Env) (res : ReadResult)
    (h : r.Read out env = .ret res) : res.r.interrupt = r.interrupt := by
  cases hb : r.buffer with
  | nil => rw [Read_nil r out env hb] at h; cases h; rfl
  | arr buf =>
    rw [Read_arr r out env buf hb] at h
    have hlen : min out.length buf.length ≤ (copy out buf).2.length := by
      rw [copy_snd_length]; exact Nat.min_le_left _ _
    split_ifs at h
    · cases h; rfl
    · split at h
      · cases h; rfl
      · rw [fill_eq _ _ _ _ _ hlen] at h; cases h; rfl
      · cases h; rfl
    · split at h
      · cases h
      · cases h; rfl
      · cases h; rfl
      · rw [fill_eq _ _ _ _ _ hlen] at h; cases h; rfl

theorem selectWait_priv (r : Reader) (env : Env) (h : r.interrupt = .priv) :
    selectWait r env = match env.wait with | some p => .recv p | none => .never := by
  unfold selectWait Reader.canInterrupt
  rw [h]
  cases env.wait <;> rfl

theorem Read_priv_result (r : Reader) (out : List Byte) (env : Env) (res : ReadResult)
    (hp : r.interrupt = .priv) (h : r.Read out env = .ret res) :
    res.err ≠ some .ErrReadInterrupted ∧ (res.err = none ∨ (res.n = 0 ∧ res.err = some .EOF)) := by
  cases hb : r.buffer with
  | nil => rw [Read_nil r out env hb] at h; cases h; simp
  | arr buf =>
    rw [Read_arr r out env buf hb, selectWait_priv r env hp] at h
    have hlen : min out.length buf.length ≤ (copy out buf).2.length := by
      rw [copy_snd_length]; exact Nat.min_le_left _ _
    split_ifs at h
    · cases h; simp
    · split at h
      · cases h; simp
      · rw [fill_eq _ _ _ _ _ hlen] at h; cases h; simp
      · cases h; simp
    · cases hw : env.wait with
      | none => rw [hw] at h; cases h
      | some p =>
        rw [hw] at h
        cases p with
        | none => cases h; simp
        | some p =>
          simp only at h
          rw [fill_eq _ _ _ _ _ hlen] at h; cases h; simp

theorem ReadMany_priv (calls : List (List Byte × Env)) :
    ∀ (r : Reader), r.interrupt = .priv → ∀ res, .ret res ∈ r.ReadMany calls →
      res.err ≠ some .ErrReadInterrupted ∧
        (res.err = none ∨ (res.n = 0 ∧ res.err = some .EOF)) := by
  induction calls with
  | nil => intro r _ res h; simp [Reader.ReadMany] at h
  | cons c rest ih =>
    intro r hp res h
    obtain ⟨out, env⟩ := c
    unfold Reader.ReadMany at h
    cases hr : r.Read out env with
    | ret res1 =>
      rw [hr] at h
      simp only [List.mem_cons] at h
      rcases h with h | h
      · cases h; exact Read_priv_result r out env res hp hr
      · exact ih res1.r ((Read_interrupt_eq r out env res1 hr).trans hp) res h
    | panic p => rw [hr] at h; simp at h
    | blocked => rw [hr] at h; simp at h

theorem ReadMany_priv_interrupt (calls : List (List Byte × Env)) :
    ∀ (r : Reader), r.interrupt = .priv → ∀ res, .ret res ∈ r.ReadMany calls →
      res.r.interrupt = .priv := by
  induction calls with
  | nil => intro r _ res h; simp [Reader.ReadMany] at h
  | cons c rest ih =>
    intro r hp res h
    obtain ⟨out, env⟩ := c
    unfold Reader.ReadMany at h
    cases hr : r.Read out env with
    | ret res1 =>
      rw [hr] at h
      simp only [List.mem_cons] at h
      rcases h with h | h
      · cases h; exact (Read_interrupt_eq r out env res hr).trans hp
      · exact ih res1.r ((Read_interrupt_eq r out env res1 hr).trans hp) res h
    | panic p => rw [hr] at h; simp at h
    | blocked => rw [hr] at h; simp at h

/-! ## Claims -/

/-- C1 (fails on the code): one write of five bytes followed by Close, read
with two-byte buffers while the close is already visible at the second call,
delivers only the first four bytes before io.EOF; the fifth is dropped.  When
the close is never visible at a non-blocking receive, all five are delivered. -/
theorem drain_drops_leftover_on_close :
    NewChanReader.drain (Writer.Close (Writer.WriteAll Chan.new 0 [[1, 2, 3, 4, 5]])).1
        [([0, 0], Sched.eager), ([0, 0], Sched.eager), ([0, 0], Sched.eager)]
      = some [1, 2, 3, 4] ∧
    [1, 2, 3, 4] ≠ List.flatten [[(1 : Byte), 2, 3, 4, 5]] ∧
    NewChanReader.drain (Writer.Close (Writer.WriteAll Chan.new 0 [[1, 2, 3, 4, 5]])).1
        [([0, 0], Sched.lazy), ([0, 0], Sched.lazy), ([0, 0], Sched.lazy), ([0, 0], Sched.lazy)]
      = some [1, 2, 3, 4, 5] := by
  decide

/-- C2: a Read on a terminal reader (nil buffer) returns (0, io.EOF) whatever
the buffer and the environment, performs no channel operation and leaves the
reader and the caller's buffer as they were; and a Read that returns io.EOF
returns n = 0 and leaves the reader terminal, so that every later Read, for
any buffers and environments, returns (0, io.EOF) too. -/
theorem terminal_is_absorbing :
    (∀ (r : Reader) (out : List Byte) (env : Env), r.buffer = .nil →
      r.Read out env = .ret { r := r, out := out, n := 0, err := some .EOF, ops := [] }) ∧
    (∀ (r : Reader) (out : List Byte) (env : Env) (res : ReadResult),
      r.Read out env = .ret res → res.err = some .EOF →
      res.n = 0 ∧ res.r.buffer = .nil ∧
      ∀ calls : List (List Byte × Env),
        res.r.ReadMany calls = calls.map
          (fun c => .ret { r := res.r, out := c.1, n := 0, err := some .EOF, ops := [] })) := by
  refine ⟨Read_nil, ?_⟩
  intro r out env res h he
  have ht := Read_EOF_terminal r out env res h he
  exact ⟨ht.1, ht.2, ReadMany_nil res.r ht.2⟩

/-- Witness for C2: a fresh reader that finds the channel closed returns io.EOF,
and two later reads with buffers of length 0 and 3 return (0, io.EOF). -/
theorem terminal_is_absorbing_witness :
    NewChanReader.Read [0] Env.closed
      = .ret { r := { interrupt := .priv, buffer := .nil }, out := [0], n := 0,
               err := some .EOF, ops := [.waitRecv none] } ∧
    (Reader.mk .priv .nil).ReadMany [([], Env.closed), ([7, 8, 9], Env.closed)]
      = [.ret { r := { interrupt := .priv, buffer := .nil }, out := [], n := 0,
                err := some .EOF, ops := [] },
         .ret { r := { interrupt := .priv, buffer := .nil }, out := [7, 8, 9], n := 0,
                err := some .EOF, ops := [] }] :=
  ⟨by decide,
   (terminal_is_absorbing.2 NewChanReader [0] Env.closed
      { r := { interrupt := .priv, buffer := .nil }, out := [0], n := 0,
        err := some .EOF, ops := [.waitRecv none] } (by decide) rfl).2.2
      [([], Env.closed), ([7, 8, 9], Env.closed)]⟩


theorem Write_open (c : Chan) (buf : List Byte) (now : Nat) (taken : Bool)
    (h : c.closed = false) :
    Writer.Write c buf now taken =
      ({ c with queue := c.queue ++ [some { Data := .arr buf, Timestamp := now }] },
       if taken then .ret (buf.length, none) else .blocked) := by
  cases taken <;> simp [Writer.Write, Chan.send, h, copy, makeBytes]

theorem Read_fresh_recv (r : Reader) (out : List Byte) (env : Env) (p : Chunk)
    (hb : r.buffer = .arr []) (ho : 1 ≤ out.length) (hw : selectWait r env = .recv (some p)) :
    r.Read out env =
      .ret { r := { r with buffer := p.Data.dropFront (min out.length p.Data.len) }
             out := p.Data.elems.take (min out.length p.Data.len) ++
                      out.drop (min out.length p.Data.len)
             n := min out.length p.Data.len
             err := none
             ops := [.waitRecv (some p)] } := by
  rw [Read_arr r out env [] hb, hw]
  have h1 : ¬ out.length ≤ 0 := by omega
  simp [h1, copy, fill_eq]

theorem Read_fresh_closed (r : Reader) (out : List Byte) (env : Env)
    (hb : r.buffer = .arr []) (ho : 1 ≤ out.length) (hw : selectWait r env = .recv none) :
    r.Read out env =
      .ret { r := { r with buffer := .nil }, out := out, n := 0, err := some .EOF,
             ops := [.waitRecv none] } := by
  rw [Read_arr r out env [] hb, hw]
  have h1 : ¬ out.length ≤ 0 := by omega
  simp [h1, copy]

/-- C3: one Write of N bytes on a new channel, then a Read on a new reader with
a buffer of length m, m >= N and m >= 1, under any timing: the Read returns
(N, nil), receives exactly that chunk, out[0..N) holds the written bytes (the
rest of out is untouched), the reader is again the new reader (empty non-nil
leftover) and the channel is empty; after Close, a Read with any non-empty
buffer returns (0, io.EOF). -/
theorem read_exact_or_oversized (buf out out2 : List Byte) (now : Nat) (taken : Bool)
    (s s2 : Sched)
    (hm : buf.length ≤ out.length) (h1 : 1 ≤ out.length) (h2 : 1 ≤ out2.length) :
    NewChanReader.ReadFrom out (Writer.Write Chan.new buf now taken).1 s =
      .ret ({ r := NewChanReader, out := buf ++ out.drop buf.length, n := buf.length,
              err := none, ops := [.waitRecv (some { Data := .arr buf, Timestamp := now })] },
            Chan.new) ∧
    (buf ++ out.drop buf.length).take buf.length = buf ∧
    NewChanReader.ReadFrom out2 (Writer.Close Chan.new).1 s2 =
      .ret ({ r := { interrupt := .priv, buffer := .nil }, out := out2, n := 0,
              err := some .EOF, ops := [.waitRecv none] },
            (Writer.Close Chan.new).1) := by
  refine ⟨?_, by simp, ?_⟩
  · have hw : selectWait NewChanReader
        ((Writer.Write Chan.new buf now taken).1.env s) =
          .recv (some { Data := .arr buf, Timestamp := now }) := by
      rw [selectWait_priv _ _ rfl, Write_open _ _ _ _ rfl]
      simp [Chan.env, Chan.recv, Chan.new]
    unfold Reader.ReadFrom
    rw [Read_fresh_recv _ _ _ _ rfl h1 hw, Write_open _ _ _ _ rfl]
    simp [Slice.len, Slice.elems, Slice.dropFront, Nat.min_eq_right hm, Chan.after, Op.isRecv,
      Chan.recv, Chan.new, NewChanReader]
  · have hw : selectWait NewChanReader ((Writer.Close Chan.new).1.env s2) = .recv none := by
      rw [selectWait_priv _ _ rfl]
      simp [Chan.env, Chan.recv, Chan.new, Writer.Close, Chan.close]
    unfold Reader.ReadFrom
    rw [Read_fresh_closed _ _ _ rfl h2 hw]
    simp [Chan.after, Op.isRecv, Chan.recv, Chan.new, Writer.Close, Chan.close, NewChanReader]

/-- Witness for C3: "hello" (5 bytes) read into a buffer of 7. -/
theorem read_exact_or_oversized_witness :
    NewChanReader.ReadFrom [0, 0, 0, 0, 0, 9, 9]
        (Writer.Write Chan.new [104, 101, 108, 108, 111] 3 true).1 Sched.lazy =
      .ret ({ r := NewChanReader, out := [104, 101, 108, 108, 111, 9, 9], n := 5,
              err := none,
              ops := [.waitRecv (some { Data := .arr [104, 101, 108, 108, 111],
                                        Timestamp := 3 })] },
            Chan.new) ∧
    NewChanReader.ReadFrom [0, 0, 0, 0, 0, 9, 9] (Writer.Close Chan.new).1 Sched.lazy =
      .ret ({ r := { interrupt := .priv, buffer := .nil }, out := [0, 0, 0, 0, 0, 9, 9],
              n := 0, err := some .EOF, ops := [.waitRecv none] },
            (Writer.Close Chan.new).1) :=
  have h := read_exact_or_oversized [104, 101, 108, 108, 111] [0, 0, 0, 0, 0, 9, 9]
    [0, 0, 0, 0, 0, 9, 9] 3 true Sched.lazy Sched.lazy (by decide) (by decide) (by decide)
  ⟨h.1, h.2.2⟩


theorem Read_short_backlog (r : Reader) (out : List Byte) (env : Env) (L : List Byte)
    (hb : r.buffer = .arr L) (h0 : 0 < L.length) (hle : L.length ≤ out.length) :
    r.Read out env =
      match env.poll with
      | some none =>
        .ret { r := { r with buffer := .nil }, out := L ++ out.drop L.length,
               n := L.length, err := none, ops := [.pollRecv none] }
      | some (some p) =>
        Reader.fill { r with buffer := .arr [] } (L ++ out.drop L.length) L.length p
          (.pollRecv (some p))
      | none =>
        .ret { r := { r with buffer := .arr [] }, out := L ++ out.drop L.length,
               n := L.length, err := none, ops := [.pollDefault] } := by
  rw [Read_arr r out env L hb]
  have hmin : min out.length L.length = L.length := Nat.min_eq_right hle
  have h1 : ¬ out.length ≤ L.length - L.length := by omega
  simp only [hmin, h1, h0, if_true, if_false, copy, List.take_length, List.drop_length]

theorem ReadFrom_terminal (r : Reader) (out : List Byte) (c : Chan) (s : Sched)
    (h : r.buffer = .nil) :
    r.ReadFrom out c s =
      .ret ({ r := r, out := out, n := 0, err := some .EOF, ops := [] }, c) := by
  unfold Reader.ReadFrom
  rw [Read_nil r out _ h]
  simp [Chan.after]

theorem ReadFrom_fresh_closed (out : List Byte) (s : Sched) (h : 1 ≤ out.length) :
    (Reader.mk .priv (.arr [])).ReadFrom out (Writer.Close Chan.new).1 s =
      .ret ({ r := { interrupt := .priv, buffer := .nil }, out := out, n := 0,
              err := some .EOF, ops := [.waitRecv none] },
            (Writer.Close Chan.new).1) := by
  have hw : selectWait (Reader.mk .priv (.arr [])) ((Writer.Close Chan.new).1.env s)
      = .recv none := by
    rw [selectWait_priv _ _ rfl]
    simp [Chan.env, Chan.recv, Chan.new, Writer.Close, Chan.close]
  unfold Reader.ReadFrom
  rw [Read_fresh_closed _ _ _ rfl h hw]
  simp [Chan.after, Op.isRecv, Chan.recv, Chan.new, Writer.Close, Chan.close]

/-- C4: one Write of N bytes on a new channel and reads with buffers of length
m, 1 <= m < N <= 2m, on a new reader, under any timing.  The first Read
returns (m, nil) with out equal to the first m bytes and keeps the last N-m
bytes as leftover.  With nothing more written, the second Read returns
(N-m, nil) and out[0..N-m) holds exactly the remaining bytes, both when the
channel is still open and when it is already closed, and takes nothing from
the channel.  A Read after Close with a non-empty buffer then returns
(0, io.EOF). -/
theorem short_read_then_remainder (buf out out2 out3 : List Byte) (now : Nat)
    (taken : Bool) (s1 s2 s3 : Sched)
    (h1 : 1 ≤ out.length) (h2 : out.length < buf.length)
    (h3 : buf.length ≤ 2 * out.length) (h4 : out2.length = out.length)
    (h5 : 1 ≤ out3.length) :
    NewChanReader.ReadFrom out (Writer.Write Chan.new buf now taken).1 s1 =
      .ret ({ r := { interrupt := .priv, buffer := .arr (buf.drop out.length) },
              out := buf.take out.length, n := out.length, err := none,
              ops := [.waitRecv (some { Data := .arr buf, Timestamp := now })] },
            Chan.new) ∧
    ∀ c2 : Chan, c2 = Chan.new ∨ c2 = (Writer.Close Chan.new).1 →
      ∃ res2 : ReadResult,
        (Reader.mk .priv (.arr (buf.drop out.length))).ReadFrom out2 c2 s2 = .ret (res2, c2) ∧
        res2.n = buf.length - out.length ∧ res2.err = none ∧
        res2.out.take res2.n = buf.drop out.length ∧
        ∃ res3 : ReadResult,
          res2.r.ReadFrom out3 (Writer.Close Chan.new).1 s3 =
            .ret (res3, (Writer.Close Chan.new).1) ∧
          res3.n = 0 ∧ res3.err = some .EOF := by
  constructor
  · have hw : selectWait NewChanReader
        ((Writer.Write Chan.new buf now taken).1.env s1) =
          .recv (some { Data := .arr buf, Timestamp := now }) := by
      rw [selectWait_priv _ _ rfl, Write_open _ _ _ _ rfl]
      simp [Chan.env, Chan.recv, Chan.new]
    unfold Reader.ReadFrom
    rw [Read_fresh_recv _ _ _ _ rfl h1 hw, Write_open _ _ _ _ rfl]
    simp [Slice.len, Slice.elems, Slice.dropFront, Nat.min_eq_left (Nat.le_of_lt h2),
      Chan.after, Op.isRecv, Chan.recv, Chan.new, NewChanReader]
  · intro c2 hc2
    have hL0 : 0 < (buf.drop out.length).length := by simp; omega
    have hLle : (buf.drop out.length).length ≤ out2.length := by simp; omega
    have hLlen : (buf.drop out.length).length = buf.length - out.length := by simp
    have key := fun env => Read_short_backlog (Reader.mk .priv (.arr (buf.drop out.length)))
      out2 env (buf.drop out.length) rfl hL0 hLle
    have hopen : ∀ c : Chan, (c.env s2).poll = none →
        ∃ res2 : ReadResult,
          (Reader.mk .priv (.arr (buf.drop out.length))).ReadFrom out2 c s2 = .ret (res2, c) ∧
          res2.n = buf.length - out.length ∧ res2.err = none ∧
          res2.out.take res2.n = buf.drop out.length ∧
          ∃ res3 : ReadResult,
            res2.r.ReadFrom out3 (Writer.Close Chan.new).1 s3 =
              .ret (res3, (Writer.Close Chan.new).1) ∧
            res3.n = 0 ∧ res3.err = some .EOF := by
      intro c hp
      refine ⟨{ r := { interrupt := .priv, buffer := .arr [] },
                out := buf.drop out.length ++ out2.drop (buf.drop out.length).length,
                n := (buf.drop out.length).length, err := none, ops := [.pollDefault] },
              ?_, hLlen, rfl, by simp, ?_⟩
      · unfold Reader.ReadFrom
        rw [key, hp]
        simp [Chan.after, Op.isRecv]
      · exact ⟨_, ReadFrom_fresh_closed out3 s3 h5, rfl, rfl⟩
    rcases hc2 with rfl | rfl
    · apply hopen
      simp [Chan.env, Chan.recv, Chan.new]
    · cases hr : s2.ready with
      | false =>
        apply hopen
        simp [Chan.env, hr]
      | true =>
        have hp : ((Writer.Close Chan.new).1.env s2).poll = some none := by
          simp [Chan.env, hr, Chan.recv, Chan.new, Writer.Close, Chan.close]
        refine ⟨{ r := { interrupt := .priv, buffer := .nil },
                  out := buf.drop out.length ++ out2.drop (buf.drop out.length).length,
                  n := (buf.drop out.length).length, err := none, ops := [.pollRecv none] },
                ?_, hLlen, rfl, by simp, ?_⟩
        · unfold Reader.ReadFrom
          rw [key, hp]
          simp [Chan.after, Op.isRecv, Chan.recv, Chan.new, Writer.Close, Chan.close]
        · exact ⟨_, ReadFrom_terminal _ out3 _ s3 rfl, rfl, rfl⟩

/-- Witness for C4: eleven bytes read through buffers of six, as in
TestReadLessThanWrite, with the channel closed before the second Read. -/
theorem short_read_then_remainder_witness :
    NewChanReader.ReadFrom [0, 0, 0, 0, 0, 0]
        (Writer.Write Chan.new [1, 2, 3, 4, 5, 6, 7, 8, 9, 10, 11] 0 true).1 Sched.eager =
      .ret ({ r := { interrupt := .priv, buffer := .arr [7, 8, 9, 10, 11] },
              out := [1, 2, 3, 4, 5, 6], n := 6, err := none,
              ops := [.waitRecv (some { Data := .arr [1, 2, 3, 4, 5, 6, 7, 8, 9, 10, 11],
                                        Timestamp := 0 })] },
            Chan.new) ∧
    ∃ res2 : ReadResult,
      (Reader.mk .priv (.arr [7, 8, 9, 10, 11])).ReadFrom [1, 2, 3, 4, 5, 6]
          (Writer.Close Chan.new).1 Sched.eager = .ret (res2, (Writer.Close Chan.new).1) ∧
      res2.n = 5 ∧ res2.err = none ∧ res2.out.take res2.n = [7, 8, 9, 10, 11] ∧
      ∃ res3 : ReadResult,
        res2.r.ReadFrom [1, 2, 3, 4, 5, 6] (Writer.Close Chan.new).1 Sched.eager =
          .ret (res3, (Writer.Close Chan.new).1) ∧
        res3.n = 0 ∧ res3.err = some .EOF :=
  have h := short_read_then_remainder [1, 2, 3, 4, 5, 6, 7, 8, 9, 10, 11] [0, 0, 0, 0, 0, 0]
    [1, 2, 3, 4, 5, 6] [1, 2, 3, 4, 5, 6] 0 true Sched.eager Sched.eager Sched.eager
    (by decide) (by decide) (by decide) (by decide) (by decide)
  ⟨h.1, h.2 _ (Or.inr rfl)⟩


/-- C5: whenever a Read performs its non-blocking receive and that receive
yields the nil pointer of a closed channel, the reader was non-terminal with
some leftover L, the Read copied n = min(len(out), len(L)) > 0 bytes, it
returns (n, nil) and not io.EOF, out[0..n) holds the first n bytes of L, the
reader is terminal afterwards, and the next Read, whatever its buffer and
environment, returns (0, io.EOF) without any channel operation. -/
theorem close_seen_after_fill (r : Reader) (out : List Byte) (env : Env) (res : ReadResult)
    (h : r.Read out env = .ret res) (hops : res.ops = [.pollRecv none]) :
    ∃ L : List Byte, r.buffer = .arr L ∧ env.poll = some none ∧
      0 < res.n ∧ res.n = min out.length L.length ∧ res.err = none ∧
      res.out.take res.n = L.take res.n ∧ res.r.buffer = .nil ∧
      ∀ (out2 : List Byte) (env2 : Env),
        res.r.Read out2 env2 =
          .ret { r := res.r, out := out2, n := 0, err := some .EOF, ops := [] } := by
  cases hb : r.buffer with
  | nil => rw [Read_nil r out env hb] at h; cases h; simp at hops
  | arr buf =>
    rw [Read_arr r out env buf hb] at h
    have hlen : min out.length buf.length ≤ (copy out buf).2.length := by
      rw [copy_snd_length]; exact Nat.min_le_left _ _
    split_ifs at h with hc1 hc2
    · cases h; simp at hops
    · cases hp : env.poll with
      | none => rw [hp] at h; cases h; simp at hops
      | some q =>
        cases q with
        | some p =>
          rw [hp] at h
          simp only at h
          rw [fill_eq _ _ _ _ _ hlen] at h; cases h; simp at hops
        | none =>
          rw [hp] at h
          cases h
          refine ⟨buf, rfl, rfl, hc2, rfl, rfl, ?_, rfl, ?_⟩
          · simp [copy]
          · intro out2 env2
            exact Read_nil _ out2 env2 rfl
    · split at h
      · cases h
      · cases h; simp at hops
      · cases h; simp at hops
      · rw [fill_eq _ _ _ _ _ hlen] at h; cases h; simp at hops

/-- Witness for C5: leftover of one byte, buffer of two, channel closed. -/
theorem close_seen_after_fill_witness :
    ∃ L : List Byte, (Reader.mk .priv (.arr [5])).buffer = .arr L ∧
      Env.closed.poll = some none ∧
      0 < 1 ∧ 1 = min [(0 : Byte), 0].length L.length ∧ (none : Option Error) = none ∧
      [(5 : Byte), 0].take 1 = L.take 1 ∧ (Reader.mk .priv .nil).buffer = .nil ∧
      ∀ (out2 : List Byte) (env2 : Env),
        (Reader.mk .priv .nil).Read out2 env2 =
          .ret { r := Reader.mk .priv .nil, out := out2, n := 0, err := some .EOF,
                 ops := [] } :=
  close_seen_after_fill (Reader.mk .priv (.arr [5])) [0, 0] Env.closed
    { r := Reader.mk .priv .nil, out := [5, 0], n := 1, err := none,
      ops := [.pollRecv none] } (by decide) rfl

/-- C6: on a reader with an empty non-nil leftover and a non-empty buffer, when
the blocking select ends with the interrupt case, Read returns
(0, ErrReadInterrupted), takes nothing from the input channel, and leaves the
caller's buffer and the reader unchanged; that reader is the new reader with
its interrupt channel set.  A following Read with a non-empty buffer that
receives a chunk of N bytes returns min(N, len(out)) bytes of that chunk with
a nil error and keeps the rest as leftover, and the new reader receiving the
same chunk returns the same bytes, count, error and leftover. -/
theorem interrupt_is_recoverable (r : Reader) (out : List Byte) (env : Env)
    (hb : r.buffer = .arr []) (ho : out ≠ []) (hi : selectWait r env = .interrupted) :
    r.Read out env =
      .ret { r := r, out := out, n := 0, err := some .ErrReadInterrupted,
             ops := [.waitInterrupt] } ∧
    r = NewChanReader.SetInterrupt r.interrupt ∧
    ∀ (out2 d : List Byte) (t : Nat) (env2 env3 : Env), out2 ≠ [] →
      selectWait r env2 = .recv (some { Data := .arr d, Timestamp := t }) →
      selectWait NewChanReader env3 = .recv (some { Data := .arr d, Timestamp := t }) →
      r.Read out2 env2 =
        .ret { r := { r with buffer := .arr (d.drop (min out2.length d.length)) }
               out := d.take (min out2.length d.length) ++
                        out2.drop (min out2.length d.length)
               n := min out2.length d.length
               err := none
               ops := [.waitRecv (some { Data := .arr d, Timestamp := t })] } ∧
      NewChanReader.Read out2 env3 =
        .ret { r := { NewChanReader with
                        buffer := .arr (d.drop (min out2.length d.length)) }
               out := d.take (min out2.length d.length) ++
                        out2.drop (min out2.length d.length)
               n := min out2.length d.length
               err := none
               ops := [.waitRecv (some { Data := .arr d, Timestamp := t })] } := by
  have hlen : ∀ l : List Byte, l ≠ [] → 1 ≤ l.length := by
    intro l hl
    cases l with
    | nil => exact absurd rfl hl
    | cons a t => simp
  have hr : r = { interrupt := r.interrupt, buffer := .arr [] } := by
    cases r; simp_all
  refine ⟨?_, ?_, ?_⟩
  · rw [Read_arr r out env [] hb, hi]
    have h1 : ¬ out.length ≤ 0 := by have := hlen out ho; omega
    simp [h1, copy]
    exact hr.symm
  · exact hr
  · intro out2 d t env2 env3 ho2 hw2 hw3
    constructor
    · rw [Read_fresh_recv r out2 env2 _ hb (hlen out2 ho2) hw2]
      simp [Slice.len, Slice.elems, Slice.dropFront]
    · rw [Read_fresh_recv NewChanReader out2 env3 _ rfl (hlen out2 ho2) hw3]
      simp [Slice.len, Slice.elems, Slice.dropFront]

/-- Witness for C6: a reader with interrupt channel 0 is interrupted, then
receives "hi!" into a buffer of two. -/
theorem interrupt_is_recoverable_witness :
    (Reader.mk (.shared 0) (.arr [])).Read [0, 0] Env.interrupting =
      .ret { r := Reader.mk (.shared 0) (.arr []), out := [0, 0], n := 0,
             err := some .ErrReadInterrupted, ops := [.waitInterrupt] } ∧
    (Reader.mk (.shared 0) (.arr [])).Read [0, 0]
        (Env.offering { Data := .arr [104, 105, 33], Timestamp := 1 }) =
      .ret { r := Reader.mk (.shared 0) (.arr [33]), out := [104, 105], n := 2, err := none,
             ops := [.waitRecv (some { Data := .arr [104, 105, 33], Timestamp := 1 })] } :=
  have h := interrupt_is_recoverable (Reader.mk (.shared 0) (.arr [])) [0, 0]
    Env.interrupting rfl (by decide) (by decide)
  ⟨h.1, (h.2.2 [0, 0] [104, 105, 33] 1
    (Env.offering { Data := .arr [104, 105, 33], Timestamp := 1 })
    (Env.offering { Data := .arr [104, 105, 33], Timestamp := 1 })
    (by decide) (by decide) (by decide)).1⟩


/-- C7 (fails on the code): with leftover [3, 4, 5], a buffer of two and the
channel already closed, which is not the case of a chunk arriving, Read
delivers [3, 4] and makes the reader terminal: the leftover byte 5 is neither
delivered nor kept, so delivered bytes followed by the new leftover are not
the old leftover. -/
theorem close_discards_leftover :
    (Reader.mk .priv (.arr [3, 4, 5])).ReadFrom [0, 0] (Writer.Close Chan.new).1 Sched.eager =
      .ret ({ r := { interrupt := .priv, buffer := .nil }, out := [3, 4], n := 2,
              err := none, ops := [.pollRecv none] },
            (Writer.Close Chan.new).1) ∧
    ([3, 4] : List Byte).take 2 ++ Slice.elems .nil ≠ [3, 4, 5] ++ [] := by
  decide

/-- C8: on an open channel, Write of any buffer (the empty one included) hands
over exactly one chunk, placed after everything sent before, whose Data is a
non-nil slice with the length and contents of the buffer, and leaves the
channel open; when the send can proceed (a receive takes the chunk) the call
returns (len(buf), nil), and when no receive ever takes it the call never
returns, the whole chunk waiting: in neither case is part of the buffer
written. -/
theorem write_sends_one_whole_chunk (c : Chan) (buf : List Byte) (now : Nat) (taken : Bool)
    (h : c.closed = false) :
    Writer.Write c buf now taken =
      ({ queue := c.queue ++ [some { Data := .arr buf, Timestamp := now }], closed := false },
       if taken then .ret (buf.length, none) else .blocked) ∧
    (Slice.arr buf).len = buf.length ∧ (Slice.arr buf).elems = buf := by
  refine ⟨?_, rfl, rfl⟩
  rw [Write_open c buf now taken h, ← h]

/-- Witness for C8: the empty buffer written behind one pending chunk, once
with a receive taking it and once with none. -/
theorem write_sends_one_whole_chunk_witness :
    Writer.Write { queue := [some { Data := .arr [1], Timestamp := 0 }], closed := false }
        [] 1 true =
      ({ queue := [some { Data := .arr [1], Timestamp := 0 },
                   some { Data := .arr [], Timestamp := 1 }], closed := false },
       .ret (0, none)) ∧
    Writer.Write { queue := [some { Data := .arr [1], Timestamp := 0 }], closed := false }
        [] 1 false =
      ({ queue := [some { Data := .arr [1], Timestamp := 0 },
                   some { Data := .arr [], Timestamp := 1 }], closed := false },
       .blocked) :=
  ⟨(write_sends_one_whole_chunk
      { queue := [some { Data := .arr [1], Timestamp := 0 }], closed := false } [] 1 true
      rfl).1,
   (write_sends_one_whole_chunk
      { queue := [some { Data := .arr [1], Timestamp := 0 }], closed := false } [] 1 false
      rfl).1⟩

/-- C9: Close on an open channel marks it closed, keeps what is pending, and
returns nil; on a channel that is already closed, Close panics and every Write
panics, whether or not a receiver is there, neither returns, and the channel,
its pending chunks included, is left as it was. -/
theorem closed_writer_rejects (c : Chan) :
    (c.closed = false →
      Writer.Close c = ({ queue := c.queue, closed := true }, .ret none)) ∧
    (c.closed = true →
      Writer.Close c = (c, .panic .closeOfClosed) ∧
      ∀ (buf : List Byte) (now : Nat) (taken : Bool),
        Writer.Write c buf now taken = (c, .panic .sendOnClosed)) := by
  constructor
  · intro h
    simp [Writer.Close, Chan.close, h]
  · intro h
    constructor
    · simp [Writer.Close, Chan.close, h]
    · intro buf now taken
      simp [Writer.Write, Chan.send, h]

/-- Witness for C9: a new channel is closed once, then Close and Write are
tried again. -/
theorem closed_writer_rejects_witness :
    Writer.Close Chan.new = ({ queue := [], closed := true }, .ret none) ∧
    Writer.Close (Writer.Close Chan.new).1 =
      ((Writer.Close Chan.new).1, .panic .closeOfClosed) ∧
    Writer.Write (Writer.Close Chan.new).1 [1, 2] 0 true =
      ((Writer.Close Chan.new).1, .panic .sendOnClosed) :=
  ⟨(closed_writer_rejects Chan.new).1 rfl,
   ((closed_writer_rejects (Writer.Close Chan.new).1).2 rfl).1,
   ((closed_writer_rejects (Writer.Close Chan.new).1).2 rfl).2 [1, 2] 0 true⟩

/-- C10: starting from NewChanReader and never calling SetInterrupt, for any
sequence of Read calls with any buffers and any environments (interrupt
channels firing or not), every Read that returns has an error other than
ErrReadInterrupted: it returns (n, nil) or (0, io.EOF); and the reader keeps
its private interrupt channel. -/
theorem never_interrupted_by_default (calls : List (List Byte × Env)) (res : ReadResult)
    (h : .ret res ∈ NewChanReader.ReadMany calls) :
    res.err ≠ some .ErrReadInterrupted ∧
      (res.err = none ∨ (res.n = 0 ∧ res.err = some .EOF)) ∧
      res.r.interrupt = .priv := by
  have h1 := ReadMany_priv calls NewChanReader rfl res h
  exact ⟨h1.1, h1.2, ReadMany_priv_interrupt calls NewChanReader rfl res h⟩

/-- Witness for C10: a new reader first waits while every shared interrupt
channel fires and a chunk arrives, then finds the channel closed. -/
theorem never_interrupted_by_default_witness :
    (none : Option Error) ≠ some .ErrReadInterrupted ∧
      ((none : Option Error) = none ∨ (1 = 0 ∧ (none : Option Error) = some .EOF)) ∧
      (Reader.mk .priv (.arr [])).interrupt = .priv :=
  never_interrupted_by_default
    [([0, 0], { poll := none, wait := some (some { Data := .arr [7], Timestamp := 0 }),
                fires := fun _ => true, intrFirst := true }),
     ([0, 0], Env.closed)]
    { r := Reader.mk .priv (.arr []), out := [7, 0], n := 1, err := none,
      ops := [.waitRecv (some { Data := .arr [7], Timestamp := 0 })] }
    (by decide)


/-- C12: on a non-terminal reader with leftover L and a buffer of length m,
m < len(L) < 2m, when the non-blocking receive yields a chunk c, Read returns
(m, nil), out is exactly L[0..m) (no byte of c is copied), and the leftover
becomes the whole of c.Data.  The reader afterwards is the same whatever the
leftover held: L[m..] is in no later state, so no later Read can return it. -/
theorem overlap_overwrites_leftover (r : Reader) (out : List Byte) (env : Env)
    (L : List Byte) (c : Chunk)
    (hb : r.buffer = .arr L) (h1 : out.length < L.length) (h2 : L.length < 2 * out.length)
    (hp : env.poll = some (some c)) :
    r.Read out env =
      .ret { r := { r with buffer := c.Data }, out := L.take out.length, n := out.length,
             err := none, ops := [.pollRecv (some c)] } ∧
    ∀ L2 : List Byte, out.length < L2.length → L2.length < 2 * out.length →
      ∃ res2 : ReadResult,
        Reader.Read { r with buffer := .arr L2 } out env = .ret res2 ∧
        res2.r = { r with buffer := c.Data } := by
  have key : ∀ (r0 : Reader) (L0 : List Byte), r0.buffer = .arr L0 →
      out.length < L0.length → L0.length < 2 * out.length →
      r0.Read out env =
        .ret { r := { r0 with buffer := c.Data }, out := L0.take out.length,
               n := out.length, err := none, ops := [.pollRecv (some c)] } := by
    intro r0 L0 hb0 h10 h20
    have hmin : min out.length L0.length = out.length := Nat.min_eq_left (Nat.le_of_lt h10)
    have hg : ¬ out.length ≤ L0.length - out.length := by omega
    have hpos : 0 < out.length := by omega
    have hlen : out.length ≤ (copy out L0).2.length := by rw [copy_snd_length]
    rw [Read_arr r0 out env L0 hb0]
    simp only [hmin, hg, hpos, if_true, if_false, hp]
    rw [fill_eq _ _ _ _ _ hlen]
    have hd : c.Data.dropFront 0 = c.Data := by
      cases c.Data <;> simp [Slice.dropFront]
    simp [copy, hmin, hd, Nat.le_of_lt h10]
  refine ⟨key r L hb h1 h2, ?_⟩
  intro L2 h12 h22
  exact ⟨_, key { r with buffer := .arr L2 } L2 rfl h12 h22, rfl⟩

/-- Witness for C12: leftover [3, 4, 5], buffer of two, chunk [6, 7] ready. -/
theorem overlap_overwrites_leftover_witness :
    (Reader.mk .priv (.arr [3, 4, 5])).Read [0, 0]
        (Env.offering { Data := .arr [6, 7], Timestamp := 1 }) =
      .ret { r := Reader.mk .priv (.arr [6, 7]), out := [3, 4], n := 2, err := none,
             ops := [.pollRecv (some { Data := .arr [6, 7], Timestamp := 1 })] } :=
  (overlap_overwrites_leftover (Reader.mk .priv (.arr [3, 4, 5])) [0, 0]
    (Env.offering { Data := .arr [6, 7], Timestamp := 1 }) [3, 4, 5]
    { Data := .arr [6, 7], Timestamp := 1 } rfl (by decide) (by decide) rfl).1

/-- C13: Read gets to its blocking select exactly when the reader is
non-terminal, its leftover is empty and len(out) > 0; otherwise it returns,
with no operation of the blocking select.  A Read with a zero-length buffer
on a non-terminal reader returns (0, nil) with no channel operation and the
reader unchanged, in every environment, a closed channel included. -/
theorem blocks_only_on_empty_backlog (r : Reader) (out : List Byte) (env : Env) :
    ((r.Read out env).reachedWait = true ↔ (r.buffer = .arr [] ∧ 0 < out.length)) ∧
    (¬ (r.buffer = .arr [] ∧ 0 < out.length) →
      ∃ res : ReadResult, r.Read out env = .ret res ∧ res.ops.any Op.isWait = false) ∧
    (∀ L : List Byte, r.buffer = .arr L → out = [] →
      r.Read out env = .ret { r := r, out := [], n := 0, err := none, ops := [] }) := by
  have hmain : ((r.Read out env).reachedWait = true ∧ r.buffer = .arr [] ∧ 0 < out.length) ∨
      (¬ (r.buffer = .arr [] ∧ 0 < out.length) ∧
        ∃ res : ReadResult, r.Read out env = .ret res ∧ res.ops.any Op.isWait = false) := by
    cases hb : r.buffer with
    | nil =>
      right
      exact ⟨by simp, _, Read_nil r out env hb, rfl⟩
    | arr buf =>
      have hlen : min out.length buf.length ≤ (copy out buf).2.length := by
        rw [copy_snd_length]; exact Nat.min_le_left _ _
      rw [Read_arr r out env buf hb]
      split_ifs with hc1 hc2
      · right
        refine ⟨?_, _, rfl, rfl⟩
        rintro ⟨hnil, hpos⟩
        have hl : buf.length = 0 := by rw [Slice.arr.inj hnil]; rfl
        omega
      · right
        have hne : ¬ (Slice.arr buf = Slice.arr [] ∧ 0 < out.length) := by
          rintro ⟨hnil, -⟩
          have hl : buf.length = 0 := by rw [Slice.arr.inj hnil]; rfl
          omega
        refine ⟨hne, ?_⟩
        split
        · exact ⟨_, rfl, rfl⟩
        · rw [fill_eq _ _ _ _ _ hlen]; exact ⟨_, rfl, rfl⟩
        · exact ⟨_, rfl, rfl⟩
      · left
        have hb0 : buf = [] := List.length_eq_zero.mp (by omega)
        have hpos : 0 < out.length := by omega
        refine ⟨?_, by rw [hb0], hpos⟩
        split
        · rfl
        · rfl
        · rfl
        · rw [fill_eq _ _ _ _ _ hlen]; rfl
  refine ⟨?_, ?_, ?_⟩
  · constructor
    · intro h
      rcases hmain with hm | ⟨-, res, hres, hops⟩
      · exact hm.2
      · rw [hres] at h
        simp only [Outcome.reachedWait] at h
        rw [hops] at h
        cases h
    · intro h
      rcases hmain with hm | ⟨hn, -⟩
      · exact hm.1
      · exact absurd h hn
  · intro h
    rcases hmain with hm | ⟨-, hex⟩
    · exact absurd hm.2 h
    · exact hex
  · intro L hb ho
    subst ho
    rw [Read_arr r [] env L hb]
    have hr : ({ r with buffer := .arr L } : Reader) = r := by
      cases r; simp_all
    simp [copy, hr]

/-- C14 (fails as stated): with a leftover of one byte and a buffer of one
byte, Read fills the buffer completely from the leftover, n = 1 = len(out),
and still performs its non-blocking receive (here taking chunk [2], which
becomes the leftover). -/
theorem poll_after_complete_fill :
    (Reader.mk .priv (.arr [1])).Read [0]
        (Env.offering { Data := .arr [2], Timestamp := 0 }) =
      .ret { r := Reader.mk .priv (.arr [2]), out := [1], n := 1, err := none,
             ops := [.pollRecv (some { Data := .arr [2], Timestamp := 0 })] } ∧
    (copy [0] [1]).1 = 1 ∧ ¬ ((copy [0] [1]).1 < [(0 : Byte)].length) := by
  decide

/-- C14 (amended): whenever a Read that returns has performed its non-blocking
receive, the reader was non-terminal with a non-empty leftover L, the count
n = min(len(out), len(L)) copied from it satisfies 0 < n <= len(out), and the
part of the leftover not copied is shorter than the buffer,
len(L) - n < len(out), so that len(L) < 2 * len(out): the buffer may be
filled completely when the channel is consulted.  And on every non-terminal
reader with 0 < len(L) <= len(out) Read returns having performed its
non-blocking receive. -/
theorem poll_after_fill (r : Reader) (out : List Byte) (env : Env) :
    (∀ res : ReadResult, r.Read out env = .ret res → res.ops.any Op.isPoll = true →
      ∃ L : List Byte, r.buffer = .arr L ∧
        0 < (copy out L).1 ∧ (copy out L).1 ≤ out.length ∧
        L.length - (copy out L).1 < out.length ∧
        0 < L.length ∧ L.length < 2 * out.length) ∧
    (∀ L : List Byte, r.buffer = .arr L → 0 < L.length → L.length ≤ out.length →
      ∃ res : ReadResult, r.Read out env = .ret res ∧ res.ops.any Op.isPoll = true) := by
  constructor
  · intro res h hop
    cases hb : r.buffer with
    | nil => rw [Read_nil r out env hb] at h; cases h; simp at hop
    | arr buf =>
      have hlen : min out.length buf.length ≤ (copy out buf).2.length := by
        rw [copy_snd_length]; exact Nat.min_le_left _ _
      rw [Read_arr r out env buf hb] at h
      split_ifs at h with hc1 hc2
      · cases h; simp at hop
      · refine ⟨buf, rfl, hc2, Nat.min_le_left _ _, ?_, ?_, ?_⟩ <;>
          (try simp only [copy_fst]) <;> omega
      · split at h
        · cases h
        · cases h; simp [Op.isPoll] at hop
        · cases h; simp [Op.isPoll] at hop
        · rw [fill_eq _ _ _ _ _ hlen] at h; cases h; simp [Op.isPoll] at hop
  · intro L hb h0 hle
    have hlen : L.length ≤ (L ++ out.drop L.length).length := by simp
    rw [Read_short_backlog r out env L hb h0 hle]
    split
    · exact ⟨_, rfl, by simp [Op.isPoll]⟩
    · rw [fill_eq _ _ _ _ _ hlen]
      exact ⟨_, rfl, by simp [Op.isPoll]⟩
    · exact ⟨_, rfl, by simp [Op.isPoll]⟩

/-- Witness for C14 (amended): leftover [1, 2], buffer of three, nothing ready. -/
theorem poll_after_fill_witness :
    (∃ L : List Byte, (Reader.mk .priv (.arr [1, 2])).buffer = .arr L ∧
      0 < (copy [0, 0, 0] L).1 ∧ (copy [0, 0, 0] L).1 ≤ [(0 : Byte), 0, 0].length ∧
      L.length - (copy [0, 0, 0] L).1 < [(0 : Byte), 0, 0].length ∧
      0 < L.length ∧ L.length < 2 * [(0 : Byte), 0, 0].length) ∧
    ∃ res : ReadResult,
      (Reader.mk .priv (.arr [1, 2])).Read [0, 0, 0] Env.interrupting = .ret res ∧
      res.ops.any Op.isPoll = true :=
  ⟨(poll_after_fill (Reader.mk .priv (.arr [1, 2])) [0, 0, 0] Env.interrupting).1
      { r := Reader.mk .priv (.arr []), out := [1, 2, 0], n := 2, err := none,
        ops := [.pollDefault] } (by decide) (by decide),
   (poll_after_fill (Reader.mk .priv (.arr [1, 2])) [0, 0, 0] Env.interrupting).2
      [1, 2] rfl (by decide) (by decide)⟩

/-- C15: on a non-terminal reader with leftover L and a buffer of length m,
len(L) >= 2m, Read returns (m, nil) with out equal to L[0..m), keeps L[m..] as
leftover and performs no channel operation; against any channel state and
timing the channel is left as it was (a pending chunk stays pending, a close
is not observed and the reader stays non-terminal). -/
theorem served_from_backlog (r : Reader) (out : List Byte) (L : List Byte)
    (hb : r.buffer = .arr L) (h : 2 * out.length ≤ L.length) :
    (∀ env : Env, r.Read out env =
      .ret { r := { r with buffer := .arr (L.drop out.length) }, out := L.take out.length,
             n := out.length, err := none, ops := [] }) ∧
    (∀ (c : Chan) (s : Sched), r.ReadFrom out c s =
      .ret ({ r := { r with buffer := .arr (L.drop out.length) }, out := L.take out.length,
              n := out.length, err := none, ops := [] }, c)) := by
  have key : ∀ env : Env, r.Read out env =
      .ret { r := { r with buffer := .arr (L.drop out.length) }, out := L.take out.length,
             n := out.length, err := none, ops := [] } := by
    intro env
    have hle : out.length ≤ L.length := by omega
    have hmin : min out.length L.length = out.length := Nat.min_eq_left hle
    have hg : out.length ≤ L.length - out.length := by omega
    rw [Read_arr r out env L hb]
    simp [hmin, hg, copy, hle]
  refine ⟨key, ?_⟩
  intro c s
  unfold Reader.ReadFrom
  rw [key]
  simp [Chan.after]

/-- Witness for C15: leftover of five bytes, buffer of two, channel closed. -/
theorem served_from_backlog_witness :
    (Reader.mk .priv (.arr [1, 2, 3, 4, 5])).ReadFrom [0, 0] (Writer.Close Chan.new).1
        Sched.eager =
      .ret ({ r := Reader.mk .priv (.arr [3, 4, 5]), out := [1, 2], n := 2, err := none,
              ops := [] }, (Writer.Close Chan.new).1) :=
  (served_from_backlog (Reader.mk .priv (.arr [1, 2, 3, 4, 5])) [0, 0] [1, 2, 3, 4, 5] rfl
    (by decide)).2 (Writer.Close Chan.new).1 Sched.eager


theorem copy_take (out L : List Byte) :
    ((copy out L).2).take (min out.length L.length) = L.take (min out.length L.length) := by
  simp only [copy]
  rw [List.take_left']
  simp

theorem dropFront_elems (s : Slice) (k : Nat) : (s.dropFront k).elems = s.elems.drop k := by
  cases s <;> simp [Slice.dropFront, Slice.elems]

theorem len_eq_elems (s : Slice) : s.len = s.elems.length := by
  cases s <;> simp [Slice.len, Slice.elems]

theorem fill_conserves (A E X : List Byte) (n k : Nat) (hn : n ≤ A.length) (hk : k ≤ E.length) :
    (A.take n ++ (E.take k ++ X)).take (n + k) ++ E.drop k = A.take n ++ E := by
  have h1 : (A.take n).length = n := by simp [hn]
  have h2 : (A.take n ++ (E.take k ++ X)).take (n + k) = A.take n ++ E.take k := by
    have h3 : (E.take k).length = k := by simp [hk]
    rw [← List.append_assoc]
    apply List.take_left'
    simp [h1, h3]
  rw [h2, List.append_assoc, List.take_append_drop]

theorem fill_conserved (r : Reader) (out : List Byte) (n : Nat) (p : Chunk) (op : Op)
    (res : ReadResult) (hn : n ≤ out.length) (h : r.fill out n p op = .ret res) :
    res.out.take res.n ++ res.r.buffer.elems = out.take n ++ p.Data.elems ∧
      res.ops = [op] ∧ res.n ≤ out.length ∧ res.out.length = out.length ∧ res.err = none := by
  rw [fill_eq r out n p op hn] at h
  cases h
  have hk : min (out.length - n) p.Data.len ≤ p.Data.elems.length := by
    rw [len_eq_elems]; exact Nat.min_le_right _ _
  refine ⟨?_, rfl, ?_, ?_, rfl⟩
  · simp only [dropFront_elems]
    exact fill_conserves out p.Data.elems _ n _ hn hk
  · show n + min (out.length - n) p.Data.len ≤ out.length
    omega
  · show (out.take n ++ (p.Data.elems.take (min (out.length - n) p.Data.len) ++
        out.drop (n + min (out.length - n) p.Data.len))).length = out.length
    simp only [List.length_append, List.length_take, List.length_drop]
    omega

/-- C16: for a Read that returns on a non-terminal reader with leftover L and
a buffer of length m, unless m < len(L) < 2m and the non-blocking receive
yielded a chunk or the nil of a closed channel, the delivered bytes out[0..n)
followed by the new leftover (nothing if terminal) are L followed by the data
of the chunk received in the call (nothing if none was).  An interrupted Read
had an empty leftover and leaves an empty non-nil one, so it discards nothing;
and when m < len(L) < 2m with nothing available the Read delivers L[0..m) and
keeps L[m..]. -/
theorem bytes_conserved_outside_overlap (r : Reader) (out : List Byte) (env : Env)
    (res : ReadResult) (L : List Byte)
    (hb : r.buffer = .arr L) (h : r.Read out env = .ret res)
    (hx : ¬ (out.length < L.length ∧ L.length < 2 * out.length ∧
              ∃ q, res.ops = [.pollRecv q])) :
    res.out.take res.n ++ res.r.buffer.elems = L ++ received res.ops ∧
    (res.ops = [.waitInterrupt] → L = [] ∧ res.r.buffer = .arr [] ∧ res.n = 0) ∧
    (out.length < L.length → L.length < 2 * out.length → env.poll = none →
      res.out.take res.n = L.take out.length ∧ res.r.buffer = .arr (L.drop out.length)) := by
  have hlen : min out.length L.length ≤ (copy out L).2.length := by
    rw [copy_snd_length]; exact Nat.min_le_left _ _
  have hsplit : L.take (min out.length L.length) ++ L.drop (min out.length L.length) = L :=
    List.take_append_drop _ _
  rw [Read_arr r out env L hb] at h
  split_ifs at h with hc1 hc2
  · cases h
    refine ⟨?_, by simp, ?_⟩
    · simp [received, copy_take, Slice.elems]
    · intro h1 h2 _
      omega
  · cases hp : env.poll with
    | none =>
      rw [hp] at h
      cases h
      refine ⟨?_, by simp, ?_⟩
      · simp [received, copy_take, Slice.elems, Op.data]
      · intro h1 _ _
        have hmin : min out.length L.length = out.length := Nat.min_eq_left (Nat.le_of_lt h1)
        constructor
        · show ((copy out L).2).take (min out.length L.length) = _
          rw [copy_take, hmin]
        · show Slice.arr (L.drop (min out.length L.length)) = _
          rw [hmin]
    | some q =>
      have hLm : L.length ≤ out.length := by
        cases q with
        | none =>
          rw [hp] at h
          cases h
          by_contra hcon
          exact hx ⟨by omega, by omega, _, rfl⟩
        | some p =>
          rw [hp] at h
          simp only at h
          have hf := fill_conserved _ _ _ _ _ _ hlen h
          by_contra hcon
          exact hx ⟨by omega, by omega, _, hf.2.1⟩
      have hmin : min out.length L.length = L.length := Nat.min_eq_right hLm
      cases q with
      | none =>
        rw [hp] at h
        cases h
        refine ⟨?_, by simp, ?_⟩
        · have hct := copy_take out L
          rw [hmin, List.take_length] at hct
          show ((copy out L).2).take (min out.length L.length) ++ [] = L ++ received _
          rw [hmin, hct]
          simp [received, Op.data]
        · intro h1 _ _
          omega
      | some p =>
        rw [hp] at h
        simp only at h
        have hf := fill_conserved _ _ _ _ _ _ hlen h
        refine ⟨?_, ?_, ?_⟩
        · rw [hf.1, hf.2.1, copy_take, hmin, List.take_length]
          simp [received, Op.data]
        · rw [hf.2.1]; simp
        · intro h1 _ hpn
          cases hpn
  · have hL0 : L = [] := List.length_eq_zero.mp (by omega)
    subst hL0
    split at h
    · cases h
    · cases h
      exact ⟨by simp [received, Slice.elems, Op.data], fun _ => ⟨rfl, rfl, rfl⟩,
        fun h1 _ _ => by simp at h1⟩
    · cases h
      exact ⟨by simp [received, Slice.elems, Op.data], by simp, fun h1 _ _ => by simp at h1⟩
    · have hf := fill_conserved _ _ _ _ _ _ hlen h
      refine ⟨?_, ?_, fun h1 _ _ => by simp at h1⟩
      · rw [hf.1, hf.2.1]
        simp [received, Op.data, copy]
      · rw [hf.2.1]; simp

/-- Witness for C16: leftover [3, 4, 5], buffer of two, nothing available:
[3, 4] is delivered and [5] kept. -/
theorem bytes_conserved_outside_overlap_witness :
    ([3, 4] : List Byte).take 2 ++ (Slice.arr [5]).elems = [3, 4, 5] ++ received [.pollDefault] :=
  (bytes_conserved_outside_overlap (Reader.mk .priv (.arr [3, 4, 5])) [0, 0] Env.interrupting
    { r := Reader.mk .priv (.arr [5]), out := [3, 4], n := 2, err := none,
      ops := [.pollDefault] } [3, 4, 5] rfl (by decide)
    (fun hc => by obtain ⟨-, -, q, hq⟩ := hc; cases hq)).1

/-- C17: for every reader, buffer and environment, Read never panics (each of
r.buffer[n:], out[n:], p.Data[n2:] is in range); it either waits forever in
the blocking select, when neither case can ever proceed, or returns n with
n <= len(out), the caller's buffer keeping its length, and n = 0 whenever the
error is io.EOF or ErrReadInterrupted. -/
theorem read_bounds_and_slice_safety (r : Reader) (out : List Byte) (env : Env) :
    (∀ p : Panic, r.Read out env ≠ .panic p) ∧
    ((r.Read out env = .blocked ∧ selectWait r env = .never) ∨
      ∃ res : ReadResult, r.Read out env = .ret res ∧ res.n ≤ out.length ∧
        res.out.length = out.length ∧
        (res.err = some .EOF ∨ res.err = some .ErrReadInterrupted → res.n = 0)) := by
  have hmain : (r.Read out env = .blocked ∧ selectWait r env = .never) ∨
      ∃ res : ReadResult, r.Read out env = .ret res ∧ res.n ≤ out.length ∧
        res.out.length = out.length ∧
        (res.err = some .EOF ∨ res.err = some .ErrReadInterrupted → res.n = 0) := by
    cases hb : r.buffer with
    | nil =>
      right
      exact ⟨_, Read_nil r out env hb, Nat.zero_le _, rfl, fun _ => rfl⟩
    | arr buf =>
      have hlen : min out.length buf.length ≤ (copy out buf).2.length := by
        rw [copy_snd_length]; exact Nat.min_le_left _ _
      have hfill : ∀ (r0 : Reader) (p : Chunk) (op : Op),
          ∃ res : ReadResult,
            r0.fill (copy out buf).2 (min out.length buf.length) p op = .ret res ∧
            res.n ≤ out.length ∧ res.out.length = out.length ∧
            (res.err = some .EOF ∨ res.err = some .ErrReadInterrupted → res.n = 0) := by
        intro r0 p op
        refine ⟨_, fill_eq r0 _ _ p op hlen, ?_⟩
        have hf := fill_conserved r0 _ _ p op _ hlen (fill_eq r0 _ _ p op hlen)
        have hl := copy_snd_length out buf
        refine ⟨le_of_le_of_eq hf.2.2.1 hl, hf.2.2.2.1.trans hl, ?_⟩
        intro he
        rw [hf.2.2.2.2] at he
        rcases he with he | he <;> cases he
      rw [Read_arr r out env buf hb]
      split_ifs with hc1 hc2
      · right
        exact ⟨_, rfl, Nat.min_le_left _ _, copy_snd_length _ _, by simp⟩
      · right
        split
        · exact ⟨_, rfl, Nat.min_le_left _ _, copy_snd_length _ _, by simp⟩
        · exact hfill _ _ _
        · exact ⟨_, rfl, Nat.min_le_left _ _, copy_snd_length _ _, by simp⟩
      · cases hw : selectWait r env with
        | never => left; exact ⟨rfl, rfl⟩
        | interrupted =>
          right
          exact ⟨_, rfl, Nat.zero_le _, copy_snd_length _ _, fun _ => rfl⟩
        | recv q =>
          right
          cases q with
          | none => exact ⟨_, rfl, Nat.zero_le _, copy_snd_length _ _, fun _ => rfl⟩
          | some p => exact hfill _ _ _
  refine ⟨?_, hmain⟩
  intro p hp
  rcases hmain with ⟨hbl, -⟩ | ⟨res, hres, -⟩
  · rw [hbl] at hp; cases hp
  · rw [hres] at hp; cases hp


theorem WriteAll_open (bufs : List (List Byte)) :
    ∀ (c : Chan) (now : Nat), c.closed = false →
      Writer.WriteAll c now bufs =
        { queue := c.queue ++ Writer.chunks now bufs, closed := false } := by
  induction bufs with
  | nil =>
    intro c now h
    cases c
    simp_all [Writer.WriteAll, Writer.chunks]
  | cons b bs ih =>
    intro c now h
    unfold Writer.WriteAll
    rw [Write_open c b now true h]
    have hq := ih { queue := c.queue ++ [some { Data := .arr b, Timestamp := now }],
                    closed := c.closed } (now + 1) h
    simp only at hq ⊢
    rw [hq]
    simp [Writer.chunks]

theorem WriteAll_Close (bufs : List (List Byte)) (now : Nat) :
    (Writer.Close (Writer.WriteAll Chan.new now bufs)).1 =
      { queue := Writer.chunks now bufs, closed := true } := by
  rw [WriteAll_open bufs Chan.new now rfl]
  simp [Writer.Close, Chan.close, Chan.new]

theorem ReadFrom_fresh_chunk (out b : List Byte) (t : Nat) (q : List (Option Chunk))
    (cl : Bool) (s : Sched) (h1 : 1 ≤ out.length) (hb : b.length ≤ out.length) :
    NewChanReader.ReadFrom out
        { queue := some { Data := .arr b, Timestamp := t } :: q, closed := cl } s =
      .ret ({ r := NewChanReader, out := b ++ out.drop b.length, n := b.length, err := none,
              ops := [.waitRecv (some { Data := .arr b, Timestamp := t })] },
            { queue := q, closed := cl }) := by
  have hw : selectWait NewChanReader
      ((Chan.mk (some { Data := .arr b, Timestamp := t } :: q) cl).env s) =
        .recv (some { Data := .arr b, Timestamp := t }) := by
    rw [selectWait_priv _ _ rfl]
    simp [Chan.env, Chan.recv]
  unfold Reader.ReadFrom
  rw [Read_fresh_recv _ _ _ _ rfl h1 hw]
  simp [Slice.len, Slice.elems, Slice.dropFront, Nat.min_eq_right hb, Chan.after, Op.isRecv,
    Chan.recv, NewChanReader]

theorem ReadFrom_fresh_drained (out : List Byte) (s : Sched) (h : 1 ≤ out.length) :
    NewChanReader.ReadFrom out { queue := [], closed := true } s =
      .ret ({ r := { interrupt := .priv, buffer := .nil }, out := out, n := 0,
              err := some .EOF, ops := [.waitRecv none] },
            { queue := [], closed := true }) :=
  ReadFrom_fresh_closed out s h

theorem readUntilEOF_whole (bufs : List (List Byte)) :
    ∀ (now : Nat) (calls : List (List Byte × Sched)),
      (∀ c ∈ calls, 1 ≤ c.1.length ∧ ∀ b ∈ bufs, b.length ≤ c.1.length) →
      NewChanReader.readUntilEOF { queue := Writer.chunks now bufs, closed := true } calls =
        wholeChunkReads now bufs calls := by
  induction bufs with
  | nil =>
    intro now calls hbig
    cases calls with
    | nil => simp [Reader.readUntilEOF, wholeChunkReads]
    | cons c rest =>
      obtain ⟨out, s⟩ := c
      have h1 := (hbig (out, s) (List.mem_cons_self _ _)).1
      simp only [Reader.readUntilEOF, Writer.chunks, wholeChunkReads]
      rw [ReadFrom_fresh_drained out s h1]
  | cons b bs ih =>
    intro now calls hbig
    cases calls with
    | nil => simp [Reader.readUntilEOF, wholeChunkReads]
    | cons c rest =>
      obtain ⟨out, s⟩ := c
      have hc := hbig (out, s) (List.mem_cons_self _ _)
      have hrest : ∀ c ∈ rest, 1 ≤ c.1.length ∧ ∀ b0 ∈ bs, b0.length ≤ c.1.length := by
        intro c hcm
        have := hbig c (List.mem_cons_of_mem _ hcm)
        exact ⟨this.1, fun b0 hb0 => this.2 b0 (List.mem_cons_of_mem _ hb0)⟩
      simp only [Reader.readUntilEOF, Writer.chunks, wholeChunkReads]
      rw [ReadFrom_fresh_chunk out b now _ true s hc.1 (hc.2 b (List.mem_cons_self _ _))]
      simp only
      rw [← ih (now + 1) rest hrest]

theorem drain_whole (bufs : List (List Byte)) :
    ∀ (now : Nat) (calls : List (List Byte × Sched)),
      (∀ c ∈ calls, 1 ≤ c.1.length ∧ ∀ b ∈ bufs, b.length ≤ c.1.length) →
      bufs.length < calls.length →
      NewChanReader.drain { queue := Writer.chunks now bufs, closed := true } calls =
        some bufs.flatten := by
  induction bufs with
  | nil =>
    intro now calls hbig hlen
    cases calls with
    | nil => simp at hlen
    | cons c rest =>
      obtain ⟨out, s⟩ := c
      have h1 := (hbig (out, s) (List.mem_cons_self _ _)).1
      simp only [Reader.drain, Writer.chunks]
      rw [ReadFrom_fresh_drained out s h1]
      rfl
  | cons b bs ih =>
    intro now calls hbig hlen
    cases calls with
    | nil => simp at hlen
    | cons c rest =>
      obtain ⟨out, s⟩ := c
      have hc := hbig (out, s) (List.mem_cons_self _ _)
      have hrest : ∀ c ∈ rest, 1 ≤ c.1.length ∧ ∀ b0 ∈ bs, b0.length ≤ c.1.length := by
        intro c hcm
        have := hbig c (List.mem_cons_of_mem _ hcm)
        exact ⟨this.1, fun b0 hb0 => this.2 b0 (List.mem_cons_of_mem _ hb0)⟩
      have hl : bs.length < rest.length := by
        simp only [List.length_cons] at hlen
        omega
      simp only [Reader.drain, Writer.chunks]
      rw [ReadFrom_fresh_chunk out b now _ true s hc.1 (hc.2 b (List.mem_cons_self _ _))]
      simp only
      rw [ih (now + 1) rest hrest hl]
      simp

theorem wholeChunkReads_props (bufs : List (List Byte)) :
    ∀ (now : Nat) (calls : List (List Byte × Sched)),
      (∀ res ∈ wholeChunkReads now bufs calls,
        res.r.buffer.elems = [] ∧ res.ops.any Op.isPoll = false) ∧
      ((wholeChunkReads now bufs calls).filter (fun res => decide (res.err = none))).map
          (fun res => res.out.take res.n) = bufs.take calls.length := by
  induction bufs with
  | nil =>
    intro now calls
    cases calls with
    | nil => simp [wholeChunkReads]
    | cons c rest =>
      obtain ⟨out, s⟩ := c
      simp [wholeChunkReads, Slice.elems, Op.isPoll]
  | cons b bs ih =>
    intro now calls
    cases calls with
    | nil => simp [wholeChunkReads]
    | cons c rest =>
      obtain ⟨out, s⟩ := c
      have h := ih (now + 1) rest
      constructor
      · intro res hres
        simp only [wholeChunkReads, List.mem_cons] at hres
        rcases hres with rfl | hres
        · simp [NewChanReader, Slice.elems, Op.isPoll]
        · exact h.1 res hres
      · simp only [wholeChunkReads, List.length_cons, List.take_succ_cons]
        rw [List.filter_cons_of_pos (by simp), List.map_cons, h.2]
        simp

/-- C18: buffers written one after the other to a new channel, then Close, and
a new reader reading until the first error with buffers that each have length
at least 1 and at least the length of every written buffer, under any timing:
the i-th Read receives the i-th chunk whole in its blocking select and returns
(len(b_i), nil), the Read after the last chunk returns (0, io.EOF); after
every Read the leftover holds no byte, no Read performs the non-blocking
receive, the Reads with nil error deliver the written buffers one each, in
order, and the delivered bytes up to io.EOF are the concatenation of the
written buffers. -/
theorem roundtrip_with_large_buffers (bufs : List (List Byte)) (now : Nat)
    (calls : List (List Byte × Sched))
    (hbig : ∀ c ∈ calls, 1 ≤ c.1.length ∧ ∀ b ∈ bufs, b.length ≤ c.1.length) :
    NewChanReader.readUntilEOF (Writer.Close (Writer.WriteAll Chan.new now bufs)).1 calls =
      wholeChunkReads now bufs calls ∧
    (∀ res ∈ NewChanReader.readUntilEOF (Writer.Close (Writer.WriteAll Chan.new now bufs)).1
        calls, res.r.buffer.elems = [] ∧ res.ops.any Op.isPoll = false) ∧
    ((NewChanReader.readUntilEOF (Writer.Close (Writer.WriteAll Chan.new now bufs)).1
        calls).filter (fun res => decide (res.err = none))).map
          (fun res => res.out.take res.n) = bufs.take calls.length ∧
    (bufs.length < calls.length →
      NewChanReader.drain (Writer.Close (Writer.WriteAll Chan.new now bufs)).1 calls =
        some bufs.flatten) := by
  rw [WriteAll_Close, readUntilEOF_whole bufs now calls hbig]
  exact ⟨rfl, (wholeChunkReads_props bufs now calls).1, (wholeChunkReads_props bufs now calls).2,
    drain_whole bufs now calls hbig⟩

/-- Witness for C18: "ab" and "c" written, read with three buffers of two. -/
theorem roundtrip_with_large_buffers_witness :
    NewChanReader.drain (Writer.Close (Writer.WriteAll Chan.new 0 [[97, 98], [99]])).1
        [([0, 0], Sched.eager), ([0, 0], Sched.lazy), ([0, 0], Sched.eager)] =
      some [97, 98, 99] :=
  (roundtrip_with_large_buffers [[97, 98], [99]] 0
    [([0, 0], Sched.eager), ([0, 0], Sched.lazy), ([0, 0], Sched.eager)]
    (by decide)).2.2.2 (by decide)


theorem produces_nonnil (p : Chunk) (h : Writer.produces p) : p.Data ≠ .nil := by
  obtain ⟨buf, now, taken, hq⟩ := h
  rw [Write_open Chan.new buf now taken rfl] at hq
  simp [Chan.new] at hq
  rw [← hq]
  simp

theorem dropFront_nil_iff (s : Slice) (k : Nat) : s.dropFront k = .nil ↔ s = .nil := by
  cases s <;> simp [Slice.dropFront]

theorem Read_terminal_iff (r : Reader) (out : List Byte) (env : Env) (res : ReadResult)
    (h : r.Read out env = .ret res) (hw : ∀ op ∈ res.ops, Op.fromWriter op) :
    res.r.buffer = .nil ↔ (r.buffer = .nil ∨ res.ops.any Op.isClosed = true) := by
  cases hb : r.buffer with
  | nil => rw [Read_nil r out env hb] at h; cases h; simp [hb]
  | arr buf =>
    have hlen : min out.length buf.length ≤ (copy out buf).2.length := by
      rw [copy_snd_length]; exact Nat.min_le_left _ _
    have hfill : ∀ (r0 : Reader) (p : Chunk) (op : Op),
        r0.fill (copy out buf).2 (min out.length buf.length) p op = .ret res →
        (op = .pollRecv (some p) ∨ op = .waitRecv (some p)) →
        (res.r.buffer = .nil ↔ (Slice.arr buf = .nil ∨ res.ops.any Op.isClosed = true)) := by
      intro r0 p op hf hop
      rw [fill_eq r0 _ _ p op hlen] at hf
      cases hf
      have hp : p.Data ≠ .nil :=
        produces_nonnil p (hw op (by simp) p hop)
      rcases hop with rfl | rfl <;> simp [dropFront_nil_iff, hp, Op.isClosed]
    rw [Read_arr r out env buf hb] at h
    split_ifs at h
    · cases h; simp
    · split at h
      · cases h; simp [Op.isClosed]
      · exact hfill _ _ _ h (Or.inl rfl)
      · cases h; simp [Op.isClosed]
    · split at h
      · cases h
      · cases h; simp [Op.isClosed]
      · cases h; simp [Op.isClosed]
      · exact hfill _ _ _ h (Or.inr rfl)

theorem ReadTrace_terminal_iff (calls : List (List Byte × Env)) :
    ∀ r : Reader, (∀ op ∈ (r.ReadTrace calls).2, Op.fromWriter op) →
      ((r.ReadTrace calls).1.buffer = .nil ↔
        (r.buffer = .nil ∨ (r.ReadTrace calls).2.any Op.isClosed = true)) := by
  induction calls with
  | nil => intro r _; simp [Reader.ReadTrace]
  | cons c rest ih =>
    intro r hw
    obtain ⟨out, env⟩ := c
    unfold Reader.ReadTrace at hw ⊢
    cases hr : r.Read out env with
    | ret res =>
      rw [hr] at hw
      simp only at hw ⊢
      have h1 := Read_terminal_iff r out env res hr
        (fun op hop => hw op (List.mem_append_left _ hop))
      have h2 := ih res.r (fun op hop => hw op (List.mem_append_right _ hop))
      rw [h2, h1, List.any_append, Bool.or_eq_true, or_assoc]
    | panic p => simp
    | blocked => simp

/-- C19: for a reader reached from NewChanReader by any sequence of Read calls
whose received chunks were all sent by Writer.Write, the reader is terminal
exactly when one of those calls received the nil pointer of the closed
channel.  Write of a zero-length buffer followed by a Read with a non-empty
buffer returns (0, nil), not io.EOF, having received the empty chunk, and the
reader is again the new, non-terminal reader. -/
theorem empty_write_is_not_eof (calls : List (List Byte × Env))
    (hw : ∀ op ∈ (NewChanReader.ReadTrace calls).2, Op.fromWriter op) :
    ((NewChanReader.ReadTrace calls).1.buffer = .nil ↔
      (NewChanReader.ReadTrace calls).2.any Op.isClosed = true) ∧
    (∀ (out : List Byte) (now : Nat) (taken : Bool) (s : Sched), out ≠ [] →
      NewChanReader.ReadFrom out (Writer.Write Chan.new [] now taken).1 s =
        .ret ({ r := NewChanReader, out := out, n := 0, err := none,
                ops := [.waitRecv (some { Data := .arr [], Timestamp := now })] },
              Chan.new) ∧
      NewChanReader.buffer ≠ .nil) := by
  constructor
  · have h := ReadTrace_terminal_iff calls NewChanReader hw
    simpa [NewChanReader] using h
  · intro out now taken s ho
    have h1 : 1 ≤ out.length := by
      cases out with
      | nil => exact absurd rfl ho
      | cons a t => simp
    constructor
    · rw [Write_open Chan.new [] now taken rfl]
      have := ReadFrom_fresh_chunk out [] now [] false s h1 (Nat.zero_le _)
      simpa [Chan.new] using this
    · simp [NewChanReader]

/-- Witness for C19: a new reader receives an empty chunk, stays non-terminal,
then receives the nil of the closed channel and becomes terminal. -/
theorem empty_write_is_not_eof_witness :
    ((NewChanReader.ReadTrace
        [([0], Env.offering { Data := .arr [], Timestamp := 0 }), ([0], Env.closed)]).1.buffer
        = .nil ↔
      (NewChanReader.ReadTrace
        [([0], Env.offering { Data := .arr [], Timestamp := 0 }), ([0], Env.closed)]).2.any
        Op.isClosed = true) ∧
    (NewChanReader.ReadTrace
        [([0], Env.offering { Data := .arr [], Timestamp := 0 })]).1.buffer ≠ .nil :=
  ⟨(empty_write_is_not_eof
      [([0], Env.offering { Data := .arr [], Timestamp := 0 }), ([0], Env.closed)]
      (by
        intro op hop p hp
        have hmem : op = .waitRecv (some { Data := .arr [], Timestamp := 0 }) ∨
            op = .waitRecv none := by
          have : (NewChanReader.ReadTrace
              [([0], Env.offering { Data := .arr [], Timestamp := 0 }), ([0], Env.closed)]).2
              = [.waitRecv (some { Data := .arr [], Timestamp := 0 }), .waitRecv none] := by
            decide
          rw [this] at hop
          simpa using hop
        rcases hmem with rfl | rfl
        · rcases hp with hp | hp
          · cases hp
          · cases hp
            exact ⟨[], 0, true, by decide⟩
        · rcases hp with hp | hp <;> cases hp)).1,
   by decide⟩


/-- Witness for C13: a zero-length buffer on a reader with leftover [1, 2],
channel closed: (0, nil), no channel operation, reader unchanged. -/
theorem blocks_only_on_empty_backlog_witness :
    (Reader.mk .priv (.arr [1, 2])).Read [] Env.closed =
      .ret { r := Reader.mk .priv (.arr [1, 2]), out := [], n := 0, err := none, ops := [] } :=
  (blocks_only_on_empty_backlog (Reader.mk .priv (.arr [1, 2])) [] Env.closed).2.2
    [1, 2] rfl rfl

/-- Witness for C17: the Read of the overlap case, leftover [3, 4, 5], buffer
of two, chunk [6, 7] ready, does not panic on a slice bound. -/
theorem read_bounds_and_slice_safety_witness :
    (Reader.mk .priv (.arr [3, 4, 5])).Read [0, 0]
        (Env.offering { Data := .arr [6, 7], Timestamp := 1 }) ≠ .panic .sliceBounds :=
  (read_bounds_and_slice_safety (Reader.mk .priv (.arr [3, 4, 5])) [0, 0]
    (Env.offering { Data := .arr [6, 7], Timestamp := 1 })).1 .sliceBounds

end Streamchan
